import Mathlib

/-!
Verification development for the navigation and grouping engine of the
`ccexp` terminal file browser.

The TypeScript sources are shallowly embedded:
* JS strings become `String` (reasoned about through their `.data` char lists);
* `path.basename` / `path.dirname` (POSIX, on inputs without trailing
  slashes) become `basename` / `dirname` below, built on `lastSplit`;
* `String.prototype.includes` becomes substring containment `strHas`,
  `String.prototype.endsWith` becomes suffix containment `strEnds`;
* `Array.prototype.sort(cmp)` becomes `List.insertionSort` over an abstract
  total transitive comparison relation (modelling `localeCompare`);
* React state + effects become explicit state records with the effect
  bodies applied as functions after every event handler.
-/

/-- The closed type enumeration of `_types.ts` (`ClaudeFileType`). -/
inductive ClaudeFileType where
  | userMemory
  | projectMemory
  | projectMemoryLocal
  | projectCommand
  | personalCommand
  | projectSubagent
  | userSubagent
  | projectSettings
  | projectSettingsLocal
  | userSettings
  | unknown
deriving DecidableEq, Repr

/-- `'project' | 'user'` scope values. -/
inductive Scope where
  | user
  | project
deriving DecidableEq, Repr

/-- Command entries extracted from content (`_CommandInfo` in `_types.ts`). -/
structure CommandInfo where
  name : String
  description : Option String
  hasArguments : Bool
deriving DecidableEq, Repr

/-- One discovered file (`ClaudeFileInfo` in `_types.ts`).
`lastModified` is modelled as a natural-number timestamp. -/
structure ClaudeFileInfo where
  path : String
  type : ClaudeFileType
  size : Nat
  lastModified : Nat
  commands : List CommandInfo
  tags : List String
deriving DecidableEq, Repr

/-- One type-bucket of files (`FileGroup` in `_types.ts`). -/
structure FileGroup where
  type : ClaudeFileType
  files : List ClaudeFileInfo
  isExpanded : Bool
deriving DecidableEq, Repr

/-- One addressable row of the flattened sequence (`FlatItem` in `_types.ts`). -/
inductive FlatItem where
  | group (groupIndex : Nat)
  | file (groupIndex : Nat) (fileIndex : Nat)
deriving DecidableEq, Repr

/-! ## String utilities -/

/-- Split a character list at its last `'/'`: the first component is
`some` of the characters strictly before the last slash (`none` when no
slash occurs), the second is the characters after it. -/
def lastSplit : List Char → Option (List Char) × List Char
  | [] => (none, [])
  | c :: t =>
    match lastSplit t with
    | (some d, b) => (some (c :: d), b)
    | (none, b) => if c = '/' then (some [], b) else (none, c :: b)

/-- POSIX `path.basename` for paths without trailing slashes: the part
after the last `'/'` (the whole string when it has no slash). -/
def basename (s : String) : String :=
  String.mk (lastSplit s.data).2

/-- POSIX `path.dirname` for paths without trailing slashes: the part
before the last `'/'`, with `"."` when there is no slash and `"/"` when
the last slash is the leading character. -/
def dirname (s : String) : String :=
  match (lastSplit s.data).1 with
  | none => "."
  | some d => if d = [] then "/" else String.mk d

/-- JS `s.includes(pat)`: `pat` occurs as a contiguous substring of `s`. -/
def strHas (s pat : String) : Prop :=
  pat.data <:+: s.data

instance (s pat : String) : Decidable (strHas s pat) :=
  inferInstanceAs (Decidable (pat.data <:+: s.data))

/-- JS `s.endsWith(pat)`: `pat` is a suffix of `s`. -/
def strEnds (s pat : String) : Prop :=
  pat.data <:+ s.data

instance (s pat : String) : Decidable (strEnds s pat) :=
  inferInstanceAs (Decidable (pat.data <:+ s.data))

/-! ## File classifier (`_utils.ts`: `detectClaudeFileType`, `getFileScope`)

`join(HOME_DIR, '.claude')` etc. are embedded as plain concatenations
(`homeDir ++ "/.claude"`), which matches `node:path.join` whenever
`homeDir` has no trailing slash. -/

/-- The match on `[fileName, dirPath]` inside `detectClaudeFileType`,
with the source's first-match-wins precedence. -/
def detectParts (homeDir fileName dirPath : String) : ClaudeFileType :=
  if fileName = "CLAUDE.md" then
    if dirPath = homeDir ++ "/.claude" then .userMemory else .projectMemory
  else if fileName = "CLAUDE.local.md" then .projectMemoryLocal
  else if strEnds fileName ".md" ∧ strHas dirPath (homeDir ++ "/.claude/commands") then
    .personalCommand
  else if strEnds fileName ".md" ∧ strHas dirPath ".claude/commands" then
    .projectCommand
  else if strEnds fileName ".md" ∧ strHas dirPath (homeDir ++ "/.claude/agents") then
    .userSubagent
  else if strEnds fileName ".md" ∧ strHas dirPath ".claude/agents" then
    .projectSubagent
  else if fileName = "settings.json" then
    if dirPath = homeDir ++ "/.claude" then .userSettings
    else if strEnds dirPath "/.claude" ∨ strHas dirPath "/.claude/" then .projectSettings
    else .unknown
  else if fileName = "settings.local.json" ∧
      (strEnds dirPath "/.claude" ∨ strHas dirPath "/.claude/") then
    .projectSettingsLocal
  else .unknown

/-- `detectClaudeFileType` of `_utils.ts`, with the ambient `HOME_DIR`
made an explicit parameter. -/
def detectClaudeFileType (homeDir filePath : String) : ClaudeFileType :=
  detectParts homeDir (basename filePath) (dirname filePath)

/-- `getFileScope` of `_utils.ts`: `filePath.includes(HOME_DIR) ? 'user' : 'project'`. -/
def getFileScope (homeDir filePath : String) : Scope :=
  if strHas filePath homeDir then .user else .project

/-- The scope a type tag implies, per the spec's glossary: `user` for the
user/personal-scope tags, `project` for the project-scope tags, none for
`unknown`.  (This is the spec's derived notion, not a source function.) -/
def impliedScope : ClaudeFileType → Option Scope
  | .userMemory => some .user
  | .userSettings => some .user
  | .personalCommand => some .user
  | .userSubagent => some .user
  | .projectMemory => some .project
  | .projectMemoryLocal => some .project
  | .projectCommand => some .project
  | .projectSubagent => some .project
  | .projectSettings => some .project
  | .projectSettingsLocal => some .project
  | .unknown => none

/-! ## Grouping builder (`useFileNavigation.tsx`, scan effect lines 96-146) -/

/-- The fixed `orderedTypes` array of `useFileNavigation.tsx`. -/
def orderedTypes : List ClaudeFileType :=
  [.userMemory, .userSettings, .personalCommand, .userSubagent,
   .projectMemory, .projectMemoryLocal, .projectSettings, .projectSettingsLocal,
   .projectCommand, .projectSubagent, .unknown]

/-- One `groupBy` bucket: the files of a given type in input order
(`es-toolkit` `groupBy` partitions stably). -/
def bucket (t : ClaudeFileType) (files : List ClaudeFileInfo) : List ClaudeFileInfo :=
  files.filter (fun f => decide (f.type = t))

/-- Comparison used by the in-bucket sort: `localeCompare` on
`a.path.split('/').pop() || ''`, i.e. on basenames, abstracted as a
relation `lec` on the basename strings. -/
def fileLe (lec : String → String → Prop) [DecidableRel lec]
    (a b : ClaudeFileInfo) : Prop :=
  lec (basename a.path) (basename b.path)

instance (lec : String → String → Prop) [DecidableRel lec] :
    DecidableRel (fileLe lec) := fun a b =>
  inferInstanceAs (Decidable (lec (basename a.path) (basename b.path)))

instance (lec : String → String → Prop) [DecidableRel lec] [IsTotal String lec] :
    IsTotal ClaudeFileInfo (fileLe lec) :=
  ⟨fun a b => IsTotal.total (r := lec) (basename a.path) (basename b.path)⟩

instance (lec : String → String → Prop) [DecidableRel lec] [IsTrans String lec] :
    IsTrans ClaudeFileInfo (fileLe lec) :=
  ⟨fun _ _ _ hab hbc => IsTrans.trans (r := lec) _ _ _ hab hbc⟩

/-- `group.sort((a, b) => aName.localeCompare(bName))`, embedded as a
sort producing a `fileLe lec`-sorted permutation. -/
def sortFiles (lec : String → String → Prop) [DecidableRel lec]
    (fs : List ClaudeFileInfo) : List ClaudeFileInfo :=
  List.insertionSort (fileLe lec) fs

/-- The group-building block of the scan effect in
`useFileNavigation.tsx`: one group per `orderedTypes` entry other than
`unknown` (empty bucket allowed, `isExpanded` iff non-empty), plus an
`unknown` group appended last only when its bucket is non-empty. -/
def buildGroups (lec : String → String → Prop) [DecidableRel lec]
    (files : List ClaudeFileInfo) : List FileGroup :=
  (orderedTypes.filter (fun t => decide (t ≠ .unknown))).map
    (fun t =>
      { type := t
        files := sortFiles lec (bucket t files)
        isExpanded := decide (bucket t files ≠ []) })
  ++ (if bucket .unknown files ≠ [] then
        [{ type := .unknown
           files := sortFiles lec (bucket .unknown files)
           isExpanded := true }]
      else [])

/-- A trivial total transitive comparison, usable wherever a concrete
`localeCompare` stand-in is needed. -/
def trivLe : String → String → Prop := fun _ _ => True

instance : DecidableRel trivLe := fun _ _ => isTrue trivial

instance : IsTotal String trivLe := ⟨fun _ _ => Or.inl trivial⟩

instance : IsTrans String trivLe := ⟨fun _ _ _ _ _ => trivial⟩

/-! ## Search filter and flattener (`FileList.tsx` lines 69-99) -/

/-- Characterwise `String.prototype.toLowerCase`. -/
def lowerStr (s : String) : String :=
  String.mk (s.data.map Char.toLower)

/-- The per-file predicate of `filteredGroups` in `FileList.tsx`:
basename or full path contains the query, case-insensitively. -/
def matchesQuery (q : String) (f : ClaudeFileInfo) : Bool :=
  decide (strHas (lowerStr (basename f.path)) (lowerStr q)) ||
    decide (strHas (lowerStr f.path) (lowerStr q))

/-- `filteredGroups` of `FileList.tsx`: identity on an empty query, else
keep matching files per group and drop groups left empty. -/
def filterFileGroups (gs : List FileGroup) (q : String) : List FileGroup :=
  if q = "" then gs
  else
    (gs.map (fun g => { g with files := g.files.filter (matchesQuery q) })).filter
      (fun g => decide (g.files.length > 0))

/-- Recursive form of the `flatItems` computation of `FileList.tsx`
(`flatMap` over the filtered groups with their indices): one group
header, then one file item per file when the group is expanded. -/
def flattenFrom (i : Nat) : List FileGroup → List FlatItem
  | [] => []
  | g :: gs =>
    (FlatItem.group i ::
        (if g.isExpanded then (List.range g.files.length).map (FlatItem.file i) else []))
      ++ flattenFrom (i + 1) gs

/-- `flatItems` of `FileList.tsx`. -/
def flattenFileGroups (gs : List FileGroup) : List FlatItem :=
  flattenFrom 0 gs

/-- Number of flat items one group contributes. -/
def sizeG (g : FileGroup) : Nat :=
  1 + (if g.isExpanded then g.files.length else 0)

/-- Total number of flat items a group list contributes. -/
def sumSizes (gs : List FileGroup) : Nat :=
  (gs.map sizeG).sum

/-! ## Navigation state machine (`FileList.tsx` lines 63-304) -/

/-- The cursor state triple of `FileList.tsx`
(`currentGroupIndex`, `currentFileIndex`, `isGroupSelected`). -/
structure Cursor where
  groupIndex : Nat
  fileIndex : Nat
  isGroupSelected : Bool
deriving DecidableEq, Repr

/-- The flat item a cursor addresses (`fileIndex` ignored on a header). -/
def cursorItem (c : Cursor) : FlatItem :=
  if c.isGroupSelected then .group c.groupIndex else .file c.groupIndex c.fileIndex

/-- `handleDownArrow` of `FileList.tsx`, as a function of the filtered
groups and the cursor.  `hasNextGroup` is
`currentGroupIndex < filteredGroups.length - 1`; JS `length - 1` on an
empty list is `-1` and the comparison is false, matching truncated
subtraction on `Nat`. -/
def handleDownArrow (gs : List FileGroup) (c : Cursor) : Cursor :=
  if c.isGroupSelected then
    match gs.get? c.groupIndex with
    | some g =>
      if g.isExpanded = true ∧ g.files.length > 0 then
        ⟨c.groupIndex, 0, false⟩
      else if c.groupIndex < gs.length - 1 then
        ⟨c.groupIndex + 1, c.fileIndex, true⟩
      else c
    | none =>
      if c.groupIndex < gs.length - 1 then ⟨c.groupIndex + 1, c.fileIndex, true⟩ else c
  else
    match gs.get? c.groupIndex with
    | some g =>
      if c.fileIndex < g.files.length - 1 then
        ⟨c.groupIndex, c.fileIndex + 1, false⟩
      else if c.groupIndex < gs.length - 1 then
        ⟨c.groupIndex + 1, 0, true⟩
      else c
    | none =>
      if c.groupIndex < gs.length - 1 then ⟨c.groupIndex + 1, 0, true⟩ else c

/-- `handleUpArrow` of `FileList.tsx`. -/
def handleUpArrow (gs : List FileGroup) (c : Cursor) : Cursor :=
  if c.isGroupSelected = false ∧ c.fileIndex > 0 then
    ⟨c.groupIndex, c.fileIndex - 1, c.isGroupSelected⟩
  else if c.isGroupSelected = false ∧ c.fileIndex = 0 then
    ⟨c.groupIndex, c.fileIndex, true⟩
  else if c.isGroupSelected = true ∧ c.groupIndex > 0 then
    match gs.get? (c.groupIndex - 1) with
    | some pg =>
      if pg.isExpanded = true ∧ pg.files.length > 0 then
        ⟨c.groupIndex - 1, pg.files.length - 1, false⟩
      else ⟨c.groupIndex - 1, c.fileIndex, true⟩
    | none => c
  else c

/-- `toggleGroup` of `useFileNavigation.tsx`: flip `isExpanded` on every
group of the given type. -/
def toggleGroupType (t : ClaudeFileType) (gs : List FileGroup) : List FileGroup :=
  gs.map (fun g => if g.type = t then { g with isExpanded := !g.isExpanded } else g)

/-! ## Viewport / scroll controller (`useVirtualScroll.ts`) -/

/-- Whether a flat item is the one the cursor addresses, as tested by
`getCurrentLinePosition`. -/
def matchesCursor (c : Cursor) : FlatItem → Bool
  | .group j => c.isGroupSelected && j == c.groupIndex
  | .file j k => !c.isGroupSelected && j == c.groupIndex && k == c.fileIndex

/-- The scanning loop of `getCurrentLinePosition`: walk the items
counting positions; return the counter at the first match, `0` when
nothing matches. -/
def linePosAux (c : Cursor) : List FlatItem → Nat → Nat
  | [], _ => 0
  | it :: rest, p => if matchesCursor c it then p else linePosAux c rest (p + 1)

/-- `getCurrentLinePosition` of `useVirtualScroll.ts`. -/
def getCurrentLinePosition (items : List FlatItem) (c : Cursor) : Nat :=
  linePosAux c items 0

/-- The arithmetic core of `getAdjustedScrollOffset`: `maxScroll` is
`Math.max(0, totalLines - viewportHeight)` (truncated subtraction on
`Nat`); scroll up to the cursor line when it is above the window, down
so it becomes the last visible line when at or past the bottom,
otherwise keep the offset. -/
def adjustCalc (currentLine vh totalLines off : Nat) : Nat :=
  if currentLine < off then max 0 currentLine
  else if currentLine ≥ off + vh then min (totalLines - vh) (currentLine - vh + 1)
  else off

/-- `getAdjustedScrollOffset` of `useVirtualScroll.ts`. -/
def getAdjustedScrollOffset (items : List FlatItem) (c : Cursor) (vh off : Nat) : Nat :=
  adjustCalc (getCurrentLinePosition items c) vh items.length off

/-- The clamped `viewStart` of `useVirtualScroll.ts`:
`Math.max(0, Math.min(scrollOffset, totalLines - viewportHeight))`. -/
def viewStart (off vh totalLines : Nat) : Nat :=
  min off (totalLines - vh)

/-! ## The interactive list as a state machine

The React component state of `FileList.tsx` (plus the group list owned
by `useFileNavigation.tsx`) becomes a record; each external event is a
handler followed by the two repair effects (`FileList.tsx` lines
206-223) run to their fixpoint and the scroll-adjustment effect of
`useVirtualScroll.ts`. -/

/-- Component state: the unfiltered groups, the live query, the cursor
triple, and the stored scroll offset. -/
structure ListState where
  fileGroups : List FileGroup
  searchQuery : String
  groupIndex : Nat
  fileIndex : Nat
  isGroupSelected : Bool
  scrollOffset : Nat
deriving DecidableEq, Repr

/-- The cursor triple of a state. -/
def ListState.cursor (s : ListState) : Cursor :=
  ⟨s.groupIndex, s.fileIndex, s.isGroupSelected⟩

/-- The filtered groups a state presents. -/
def ListState.filtered (s : ListState) : List FileGroup :=
  filterFileGroups s.fileGroups s.searchQuery

/-- One run of the cursor-repair effect (`FileList.tsx` lines 206-216):
with a non-empty filtered list, reset `groupIndex` to `0` when it is out
of range, and reset `fileIndex` to `0` when the group it currently
indexes (before the `groupIndex` reset, as in the source, which reads
the stale index within the same render) is expanded with `fileIndex` out
of range. -/
def repairIndices (fgs : List FileGroup) (gi fi : Nat) : Nat × Nat :=
  if fgs.length > 0 then
    (if gi ≥ fgs.length then 0 else gi,
      match fgs.get? gi with
      | some g => if g.isExpanded = true ∧ fi ≥ g.files.length then 0 else fi
      | none => fi)
  else (gi, fi)

/-- One pass of the repair effect over the state. -/
def repairPass (s : ListState) : ListState :=
  let r := repairIndices s.filtered s.groupIndex s.fileIndex
  { s with groupIndex := r.1, fileIndex := r.2 }

/-- The repair effect run to its fixpoint (it re-fires while its own
state writes change anything; two passes suffice). -/
def repair (s : ListState) : ListState :=
  repairPass (repairPass s)

/-- External events the component reacts to. -/
inductive Event where
  | keyUp
  | keyDown
  | toggle
  | setQuery (q : String)
deriving DecidableEq, Repr

/-- The event handlers of `FileList.tsx`: arrow keys run the navigation
handlers against the filtered groups; Enter/Space on a header toggles
that group's type; a search-text change stores the query, and the
query-change effect (lines 219-223) resets the cursor to
`(0, 0, false)`. -/
def handleEvent : Event → ListState → ListState
  | .keyUp, s =>
    let c := handleUpArrow s.filtered s.cursor
    { s with groupIndex := c.groupIndex, fileIndex := c.fileIndex,
             isGroupSelected := c.isGroupSelected }
  | .keyDown, s =>
    let c := handleDownArrow s.filtered s.cursor
    { s with groupIndex := c.groupIndex, fileIndex := c.fileIndex,
             isGroupSelected := c.isGroupSelected }
  | .toggle, s =>
    if s.isGroupSelected then
      match s.filtered.get? s.groupIndex with
      | some g => { s with fileGroups := toggleGroupType g.type s.fileGroups }
      | none => s
    else s
  | .setQuery q, s =>
    { s with searchQuery := q, groupIndex := 0, fileIndex := 0, isGroupSelected := false }

/-- Effects that re-fire after a handler: cursor repair, then the
scroll-adjustment effect computed against the new flat items. -/
def applyEffects (vh : Nat) (s : ListState) : ListState :=
  let s2 := repair s
  { s2 with
      scrollOffset :=
        getAdjustedScrollOffset (flattenFileGroups s2.filtered) s2.cursor vh
          s2.scrollOffset }

/-- One full reaction to an external event. -/
def step (vh : Nat) (e : Event) (s : ListState) : ListState :=
  applyEffects vh (handleEvent e s)

/-- The state right after mount: initial `useState` values (cursor
`(0, 0, false)`, empty query, offset `0`) with the mount-time effects
applied. -/
def initState (vh : Nat) (gs : List FileGroup) : ListState :=
  applyEffects vh
    { fileGroups := gs, searchQuery := "", groupIndex := 0, fileIndex := 0,
      isGroupSelected := false, scrollOffset := 0 }

/-- One observable transition. -/
def MachineStep (vh : Nat) (s s2 : ListState) : Prop :=
  ∃ e, s2 = step vh e s

/-- States reachable from mount with the given initial groups. -/
def Reachable (vh : Nat) (gs : List FileGroup) (s : ListState) : Prop :=
  Relation.ReflTransGen (MachineStep vh) (initState vh gs) s

/-- Run a whole event list. -/
def applyList (vh : Nat) (es : List Event) (s : ListState) : ListState :=
  es.foldl (fun s e => step vh e s) s

/-- The claimed cursor validity: `(groupIndex, fileIndex)` addresses an
existing, expanded group's existing file. -/
def validFileCursor (fgs : List FileGroup) (c : Cursor) : Prop :=
  match fgs.get? c.groupIndex with
  | some g => g.isExpanded = true ∧ c.fileIndex < g.files.length
  | none => False

instance (fgs : List FileGroup) (c : Cursor) : Decidable (validFileCursor fgs c) := by
  unfold validFileCursor
  cases fgs.get? c.groupIndex with
  | none => exact inferInstanceAs (Decidable False)
  | some g => exact inferInstanceAs (Decidable (_ ∧ _))

/-! ## The scan effect as an event system (`useFileNavigation.tsx` lines 71-169)

The effect fires a `Promise.all` per `path`/`scanner` change and its
`.then` handler writes the results into component state unconditionally
when the promise settles.  Promise settlement order is independent of
start order, so the system is modelled as a trace of start/settle
events over scan identifiers; `displayedScan` records which scan's
results the state currently shows. -/

/-- Provenance-level scan state. -/
structure ScanState where
  latestStarted : Option Nat
  displayedScan : Option Nat
deriving DecidableEq, Repr

/-- Scan lifecycle events. -/
inductive ScanEvent where
  | startScan (id : Nat)
  | settleScan (id : Nat)
deriving DecidableEq, Repr

/-- The source semantics: starting a scan records it as latest;
settlement runs the `.then` handler, which calls
`setFiles`/`setFileGroups` with that scan's results unconditionally —
there is no staleness guard in the effect. -/
def scanStep : ScanEvent → ScanState → ScanState
  | .startScan i, s => { s with latestStarted := some i }
  | .settleScan i, s => { s with displayedScan := some i }

/-- Run a scan-event trace. -/
def runScan (es : List ScanEvent) (s : ScanState) : ScanState :=
  es.foldl (fun s e => scanStep e s) s


/-! ## Concrete states used to settle the invariant claims -/

/-- A single `project-memory` file. -/
def cexFileC1 : ClaudeFileInfo :=
  ⟨"/repo/CLAUDE.md", .projectMemory, 10, 0, [], []⟩

/-- Groups built from that one file: the first canonical group
(`user-memory`) is empty and collapsed. -/
def cexGroupsC1 : List FileGroup :=
  buildGroups trivLe [cexFileC1]

/-- The component state right after mount on those groups. -/
def cexStateC1 : ListState :=
  initState 5 cexGroupsC1

/-- Scenario input for the viewport claim: two `user-memory` files and
ten `project-subagent` files. -/
def cexFilesVp : List ClaudeFileInfo :=
  [⟨"/h/.claude/a.md", .userMemory, 1, 0, [], []⟩,
    ⟨"/h/.claude/b.md", .userMemory, 1, 0, [], []⟩] ++
    (List.range 10).map (fun i => ⟨"/p/.claude/agents/x.md", .projectSubagent, 1, i, [], []⟩)

/-- The groups built from `cexFilesVp`. -/
def cexGroupsVp : List FileGroup :=
  buildGroups trivLe cexFilesVp

/-- User journey: walk down to the bottom of the list, walk back up to
the last group's header, then collapse that group. -/
def cexEventsVp : List Event :=
  List.replicate 20 Event.keyDown ++ List.replicate 10 Event.keyUp ++ [Event.toggle]

/-- The state the journey ends in. -/
def cexStateVp : ListState :=
  applyList 5 cexEventsVp (initState 5 cexGroupsVp)


/-! ### Facts about `lastSplit`, `basename`, `dirname` -/

theorem lastSplit_none_eq {l : List Char} (h : (lastSplit l).1 = none) :
    (lastSplit l).2 = l := by
  induction l with
  | nil => rfl
  | cons c t ih =>
    simp only [lastSplit] at h ⊢
    cases ht : lastSplit t with
    | mk o b =>
      cases o with
      | some d => simp [ht] at h
      | none =>
        simp only [ht] at h ⊢
        by_cases hc : c = '/'
        · simp [hc] at h
        · simp only [if_neg hc] at h ⊢
          have := ih (by simp [ht])
          simp only [ht] at this
          simp [this]

theorem lastSplit_some_eq {l : List Char} {d : List Char}
    (h : (lastSplit l).1 = some d) :
    l = d ++ '/' :: (lastSplit l).2 := by
  induction l generalizing d with
  | nil => simp [lastSplit] at h
  | cons c t ih =>
    simp only [lastSplit] at h ⊢
    cases ht : lastSplit t with
    | mk o b =>
      cases o with
      | some d' =>
        simp only [ht] at h ⊢
        obtain rfl : c :: d' = d := by simpa using h
        have := ih (d := d') (by simp [ht])
        simp only [ht] at this
        simp [← this]
      | none =>
        simp only [ht] at h ⊢
        by_cases hc : c = '/'
        · simp only [if_pos hc] at h ⊢
          obtain rfl : ([] : List Char) = d := by simpa using h
          have h2 := lastSplit_none_eq (l := t) (by simp [ht])
          simp only [ht] at h2
          simp [hc, h2]
        · simp [if_neg hc] at h

theorem lastSplit_no_slash {l : List Char} (h : '/' ∉ l) :
    lastSplit l = (none, l) := by
  induction l with
  | nil => rfl
  | cons c t ih =>
    have hc : c ≠ '/' := fun hc => h (hc ▸ List.mem_cons_self c t)
    have ht : '/' ∉ t := fun hm => h (List.mem_cons_of_mem c hm)
    simp [lastSplit, ih ht, hc]

theorem lastSplit_append {d b : List Char} (h : '/' ∉ b) :
    lastSplit (d ++ '/' :: b) = (some d, b) := by
  induction d with
  | nil => simp [lastSplit, lastSplit_no_slash h]
  | cons c t ih => simp [lastSplit, ih]

theorem data_mk (l : List Char) : (String.mk l).data = l := rfl

theorem mk_data (s : String) : String.mk s.data = s := rfl

theorem basename_of_split {p : String} {d b : List Char}
    (hp : p.data = d ++ '/' :: b) (hb : '/' ∉ b) :
    basename p = String.mk b := by
  unfold basename
  rw [hp, lastSplit_append hb]

theorem dirname_of_split {p : String} {d b : List Char}
    (hp : p.data = d ++ '/' :: b) (hb : '/' ∉ b) (hd : d ≠ []) :
    dirname p = String.mk d := by
  unfold dirname
  rw [hp, lastSplit_append hb]
  simp [hd]

/-- Concatenating strings concatenates their character data. -/
theorem append_data (a b : String) : (a ++ b).data = a.data ++ b.data :=
  String.data_append a b

theorem strHas_of_infix {s pat : String} (h : pat.data <:+: s.data) : strHas s pat := h

theorem dirname_none {s : String} (h : (lastSplit s.data).1 = none) :
    dirname s = "." := by
  unfold dirname
  rw [h]

theorem dirname_some_nil {s : String} (h : (lastSplit s.data).1 = some []) :
    dirname s = "/" := by
  unfold dirname
  rw [h]
  rfl

theorem dirname_some {s : String} {d : List Char}
    (h : (lastSplit s.data).1 = some d) (hd : d ≠ []) :
    dirname s = String.mk d := by
  unfold dirname
  rw [h]
  simp [hd]

/-- Whatever the directory part of a path contains, the path contains,
as long as the pattern is at least two characters long (ruling out the
synthetic `"."` and `"/"` directory results). -/
theorem strHas_dirname {p x : String} (hlen : 2 ≤ x.data.length)
    (h : strHas (dirname p) x) : strHas p x := by
  unfold strHas at h ⊢
  cases hd : (lastSplit p.data).1 with
  | none =>
    rw [dirname_none hd] at h
    have hle := h.length_le
    have : (("." : String).data).length = 1 := by decide
    omega
  | some d =>
    by_cases hnil : d = []
    · rw [hnil] at hd
      rw [dirname_some_nil hd] at h
      have hle := h.length_le
      have : (("/" : String).data).length = 1 := by decide
      omega
    · rw [dirname_some hd hnil] at h
      rw [data_mk] at h
      have hpre : d <+: p.data :=
        ⟨'/' :: (lastSplit p.data).2, (lastSplit_some_eq hd).symm⟩
      exact h.trans hpre.isInfix

/-- If the directory part of `p` equals `x ++ y` with `y` nonempty,
then `p` contains `x` as a substring. -/
theorem strHas_of_dirname_eq {p x y : String} (hy : y.data ≠ [])
    (h : dirname p = x ++ y) : strHas p x := by
  have hlen : 1 ≤ y.data.length := by
    cases hy' : y.data with
    | nil => exact absurd hy' hy
    | cons c t => simp
  cases hd : (lastSplit p.data).1 with
  | none =>
    rw [dirname_none hd] at h
    have hdata : ("." : String).data = x.data ++ y.data := by
      rw [h, append_data]
    have h1 : x.data.length + y.data.length = (("." : String).data).length := by
      rw [hdata]; simp
    have h2 : (("." : String).data).length = 1 := by decide
    have h3 : x.data = [] := List.length_eq_zero.mp (by omega)
    exact strHas_of_infix (by rw [h3]; exact List.nil_infix)
  | some d =>
    by_cases hnil : d = []
    · rw [hnil] at hd
      rw [dirname_some_nil hd] at h
      have hdata : ("/" : String).data = x.data ++ y.data := by
        rw [h, append_data]
      have h1 : x.data.length + y.data.length = (("/" : String).data).length := by
        rw [hdata]; simp
      have h2 : (("/" : String).data).length = 1 := by decide
      have h3 : x.data = [] := List.length_eq_zero.mp (by omega)
      exact strHas_of_infix (by rw [h3]; exact List.nil_infix)
    · rw [dirname_some hd hnil] at h
      have hdx : d = x.data ++ y.data := by
        have := congrArg String.data h
        rwa [data_mk, append_data] at this
      have hpre : d <+: p.data :=
        ⟨'/' :: (lastSplit p.data).2, (lastSplit_some_eq hd).symm⟩
      have hx : x.data <+: d := hdx ▸ ⟨y.data, rfl⟩
      exact strHas_of_infix ((hx.trans hpre).isInfix)

/-- A directory equal to `homeDir ++ "/.claude"` (or any nonempty
extension of `homeDir`) forces the path to contain `homeDir`. -/
theorem strHas_home_of_dir_sub {homeDir Y p : String} (hY : 2 ≤ Y.data.length)
    (h : strHas (dirname p) (homeDir ++ Y)) : strHas p homeDir := by
  have hX : 2 ≤ ((homeDir ++ Y).data).length := by
    rw [append_data, List.length_append]
    omega
  have h1 : strHas p (homeDir ++ Y) := strHas_dirname hX h
  have h2 : homeDir.data <+: (homeDir ++ Y).data := by
    rw [append_data]; exact ⟨Y.data, rfl⟩
  exact strHas_of_infix (h2.isInfix.trans h1)

/-- A directory satisfying the `.claude`-membership condition of the
settings rules contains `".claude"` as a substring. -/
theorem strHas_claude_of_cond {dir : String}
    (h : strEnds dir "/.claude" ∨ strHas dir "/.claude/") :
    strHas dir ".claude" := by
  cases h with
  | inl h =>
    have hsub : (".claude" : String).data <:+ ("/.claude" : String).data := by decide
    exact strHas_of_infix (hsub.trans h).isInfix
  | inr h =>
    have hsub : (".claude" : String).data <:+: ("/.claude/" : String).data := by decide
    exact strHas_of_infix (hsub.trans h)

/-- A directory equal to `homeDir ++ "/.claude"` contains `".claude"`. -/
theorem strHas_claude_of_eq_home {homeDir dir : String}
    (h : dir = homeDir ++ "/.claude") : strHas dir ".claude" := by
  subst h
  have hsub : (".claude" : String).data <:+ ("/.claude" : String).data := by decide
  refine strHas_of_infix ?_
  rw [append_data]
  exact (hsub.trans (List.suffix_append _ _)).isInfix

/-- C4: the classifier, applying its precedence rules first-match-wins,
returns `user-memory` for `CLAUDE.md` directly inside the home `.claude`
directory; `project-memory` for `CLAUDE.md` in any other directory;
`project-settings-local` for `settings.local.json` inside a `.claude`
directory; and `unknown` — never a settings type — for a `settings.json`
or `settings.local.json` whose directory has no `.claude` anywhere in it. -/
theorem claimC4_classifier_precedence (homeDir : String) :
    detectClaudeFileType homeDir (homeDir ++ "/.claude/CLAUDE.md") = .userMemory ∧
    (∀ dir : String, dir ≠ homeDir ++ "/.claude" →
      detectParts homeDir "CLAUDE.md" dir = .projectMemory) ∧
    (∀ dir : String, strEnds dir "/.claude" ∨ strHas dir "/.claude/" →
      detectParts homeDir "settings.local.json" dir = .projectSettingsLocal) ∧
    (∀ dir fn : String, fn = "settings.json" ∨ fn = "settings.local.json" →
      ¬ strHas dir ".claude" → detectParts homeDir fn dir = .unknown) := by
  refine ⟨?_, ?_, ?_, ?_⟩
  · have hdata : (homeDir ++ "/.claude/CLAUDE.md").data =
        (homeDir.data ++ ("/.claude" : String).data) ++
          '/' :: ("CLAUDE.md" : String).data := by
      rw [append_data]
      have : ("/.claude/CLAUDE.md" : String).data =
          ("/.claude" : String).data ++ '/' :: ("CLAUDE.md" : String).data := by decide
      rw [this, List.append_assoc]
    have hb : basename (homeDir ++ "/.claude/CLAUDE.md") = "CLAUDE.md" :=
      basename_of_split hdata (by decide)
    have hd : dirname (homeDir ++ "/.claude/CLAUDE.md") = homeDir ++ "/.claude" := by
      have := dirname_of_split hdata (by decide)
        (by simp [(by decide : ("/.claude" : String).data = '/' :: (".claude" : String).data)])
      rw [this]
      rfl
    unfold detectClaudeFileType
    rw [hb, hd]
    unfold detectParts
    rw [if_pos rfl, if_pos rfl]
  · intro dir hne
    unfold detectParts
    rw [if_pos rfl, if_neg hne]
  · intro dir hcond
    unfold detectParts
    rw [if_neg (by decide : ¬ ("settings.local.json" : String) = "CLAUDE.md"),
      if_neg (by decide : ¬ ("settings.local.json" : String) = "CLAUDE.local.md"),
      if_neg (fun h => absurd h.1 (by decide)),
      if_neg (fun h => absurd h.1 (by decide)),
      if_neg (fun h => absurd h.1 (by decide)),
      if_neg (fun h => absurd h.1 (by decide)),
      if_neg (by decide : ¬ ("settings.local.json" : String) = "settings.json"),
      if_pos ⟨rfl, hcond⟩]
  · intro dir fn hfn hnc
    cases hfn with
    | inl h =>
      subst h
      unfold detectParts
      rw [if_neg (by decide : ¬ ("settings.json" : String) = "CLAUDE.md"),
        if_neg (by decide : ¬ ("settings.json" : String) = "CLAUDE.local.md"),
        if_neg (fun h => absurd h.1 (by decide)),
        if_neg (fun h => absurd h.1 (by decide)),
        if_neg (fun h => absurd h.1 (by decide)),
        if_neg (fun h => absurd h.1 (by decide)),
        if_pos rfl,
        if_neg (fun heq => hnc (strHas_claude_of_eq_home heq)),
        if_neg (fun hor => hnc (strHas_claude_of_cond hor))]
    | inr h =>
      subst h
      unfold detectParts
      rw [if_neg (by decide : ¬ ("settings.local.json" : String) = "CLAUDE.md"),
        if_neg (by decide : ¬ ("settings.local.json" : String) = "CLAUDE.local.md"),
        if_neg (fun h => absurd h.1 (by decide)),
        if_neg (fun h => absurd h.1 (by decide)),
        if_neg (fun h => absurd h.1 (by decide)),
        if_neg (fun h => absurd h.1 (by decide)),
        if_neg (by decide : ¬ ("settings.local.json" : String) = "settings.json"),
        if_neg (fun h => hnc (strHas_claude_of_cond h.2))]

/-- Witness for C4 at the spec's scenario inputs with home `/Users/me`. -/
theorem claimC4_witness :
    detectClaudeFileType "/Users/me" ("/Users/me" ++ "/.claude/CLAUDE.md") =
      ClaudeFileType.userMemory ∧
    detectParts "/Users/me" "CLAUDE.md" "/repo" = ClaudeFileType.projectMemory ∧
    detectParts "/Users/me" "settings.local.json" "/repo/.claude" =
      ClaudeFileType.projectSettingsLocal ∧
    detectParts "/Users/me" "settings.json" "/repo" = ClaudeFileType.unknown := by
  obtain ⟨h1, h2, h3, h4⟩ := claimC4_classifier_precedence "/Users/me"
  exact ⟨h1, h2 "/repo" (by decide), h3 "/repo/.claude" (Or.inl (by decide)),
    h4 "/repo" "settings.json" (Or.inl rfl) (by decide)⟩

/-- C3 counterexample: for a project nested inside the home directory
(`/home/u/dev/myproj/.claude/commands/x.md` with home `/home/u`), the
classifier tags the file `project-command` (implied scope `project`),
while `getFileScope` — plain home-substring containment — answers
`user`.  The two scope derivations disagree, refuting the claim at the
very path the claim cites. -/
theorem claimC3_counterexample :
    getFileScope "/home/u" "/home/u/dev/myproj/.claude/commands/x.md" = Scope.user ∧
    detectClaudeFileType "/home/u" "/home/u/dev/myproj/.claude/commands/x.md" =
      ClaudeFileType.projectCommand ∧
    impliedScope ClaudeFileType.projectCommand = some Scope.project ∧
    Scope.user ≠ Scope.project := by
  refine ⟨by decide, by decide, rfl, by decide⟩

/-- C3 amended: the agreement holds in the project direction — a path
that does not contain the home directory as a substring (so
`getFileScope` answers `project`) is never classified with a
user/personal-scope tag.  In the other direction agreement fails (see
the counterexample). -/
theorem claimC3_scope_agreement (homeDir p : String) (h : ¬ strHas p homeDir) :
    impliedScope (detectClaudeFileType homeDir p) ≠ some Scope.user := by
  unfold detectClaudeFileType detectParts
  split_ifs with h1 h2 h3 h4 h5 h6 h7 h8 h9 h10 h11
  · exact absurd (strHas_of_dirname_eq (by decide) h2) h
  · simp [impliedScope]
  · simp [impliedScope]
  · exact absurd (strHas_home_of_dir_sub (by decide) h4.2) h
  · simp [impliedScope]
  · exact absurd (strHas_home_of_dir_sub (by decide) h6.2) h
  · simp [impliedScope]
  · exact absurd (strHas_of_dirname_eq (by decide) h9) h
  · simp [impliedScope]
  · simp [impliedScope]
  · simp [impliedScope]
  · simp [impliedScope]

/-- Witness for the amended C3 theorem at a concrete project path. -/
theorem claimC3_scope_agreement_witness :
    ¬ strHas "/repo/.claude/commands/x.md" "/home/u" ∧
    impliedScope (detectClaudeFileType "/home/u" "/repo/.claude/commands/x.md") ≠
      some Scope.user :=
  ⟨by decide, claimC3_scope_agreement "/home/u" "/repo/.claude/commands/x.md" (by decide)⟩

/-! ### Search filter: C7 -/

theorem filter_matches_twice (q : String) (l : List ClaudeFileInfo) :
    (l.filter (matchesQuery q)).filter (matchesQuery q) = l.filter (matchesQuery q) := by
  rw [List.filter_filter]
  simp

/-- C7: the search filter is idempotent, and the empty query is the
identity: filtering an already-filtered group list with the same query
changes nothing, and `filterFileGroups gs ""` returns `gs` itself (same
order, same `isExpanded` flags, no group dropped). -/
theorem claimC7_filter_idempotent_identity :
    (∀ (gs : List FileGroup) (q : String),
      filterFileGroups (filterFileGroups gs q) q = filterFileGroups gs q) ∧
    (∀ gs : List FileGroup, filterFileGroups gs "" = gs) := by
  constructor
  · intro gs q
    by_cases hq : q = ""
    · subst hq
      rfl
    · conv_lhs => rw [filterFileGroups, if_neg hq]
      have hmap :
          (filterFileGroups gs q).map
              (fun g => { g with files := g.files.filter (matchesQuery q) }) =
            filterFileGroups gs q := by
        rw [List.map_congr_left (g := fun g => g)]
        · exact List.map_id _
        intro g hg
        rw [filterFileGroups, if_neg hq] at hg
        obtain ⟨hg2, _⟩ := List.mem_filter.mp hg
        obtain ⟨g0, _, rfl⟩ := List.mem_map.mp hg2
        simp only [filter_matches_twice]
      rw [hmap]
      rw [List.filter_eq_self]
      intro g hg
      rw [filterFileGroups, if_neg hq] at hg
      exact (List.mem_filter.mp hg).2
  · intro gs
    rw [filterFileGroups, if_pos rfl]

/-! ### Viewport position fallback: C10 -/

theorem linePosAux_zero_of_no_match {c : Cursor} :
    ∀ {items : List FlatItem} (p : Nat),
      (∀ it ∈ items, matchesCursor c it = false) → linePosAux c items p = 0 := by
  intro items
  induction items with
  | nil => intro p _; rfl
  | cons it rest ih =>
    intro p h
    have hit : matchesCursor c it = false := h it (List.mem_cons_self it rest)
    rw [linePosAux, hit]
    simp only [Bool.false_eq_true, if_false]
    exact ih (p + 1) (fun x hx => h x (List.mem_cons_of_mem it hx))

/-- C10: when no flat item matches the cursor (collapsed group,
out-of-range index, ...), `getCurrentLinePosition` returns `0`, so the
scroll window is adjusted exactly as if the cursor sat on the top line;
no failure occurs. -/
theorem claimC10_no_match_top (items : List FlatItem) (c : Cursor) (vh off : Nat)
    (h : ∀ it ∈ items, matchesCursor c it = false) :
    getCurrentLinePosition items c = 0 ∧
    getAdjustedScrollOffset items c vh off = adjustCalc 0 vh items.length off := by
  have h0 : getCurrentLinePosition items c = 0 := linePosAux_zero_of_no_match 0 h
  refine ⟨h0, ?_⟩
  rw [getAdjustedScrollOffset, h0]

/-- Witness for C10: a cursor claiming a file inside a list that only
has a group header matches nothing and is treated as position `0`. -/
theorem claimC10_witness :
    (∀ it ∈ [FlatItem.group 0], matchesCursor ⟨0, 0, false⟩ it = false) ∧
    getCurrentLinePosition [FlatItem.group 0] ⟨0, 0, false⟩ = 0 ∧
    getAdjustedScrollOffset [FlatItem.group 0] ⟨0, 0, false⟩ 5 3 =
      adjustCalc 0 5 ([FlatItem.group 0] : List FlatItem).length 3 :=
  ⟨by decide, claimC10_no_match_top [FlatItem.group 0] ⟨0, 0, false⟩ 5 3 (by decide)⟩

/-! ### Scan race: C9 -/

/-- C9: evaluating the scan effect on the interleaving where scan 0 is
started, scan 1 is started while 0 is in flight, scan 1 settles, and
then scan 0's late result arrives: the displayed data comes from scan 0
even though scan 1 is the most recently started scan — the `.then`
handler has no staleness guard, so the stale result overwrites the
fresh one. -/
theorem claimC9_stale_scan_overwrites :
    runScan
        [ScanEvent.startScan 0, ScanEvent.startScan 1,
          ScanEvent.settleScan 1, ScanEvent.settleScan 0]
        ⟨none, none⟩ =
      { latestStarted := some 1, displayedScan := some 0 } ∧
    ({ latestStarted := some 1, displayedScan := some 0 } : ScanState).displayedScan ≠
      ({ latestStarted := some 1, displayedScan := some 0 } : ScanState).latestStarted := by
  exact ⟨rfl, by decide⟩

/-! ### Grouping builder: C2 -/

theorem perm_ne_nil_iff {α : Type} {a b : List α} (h : a.Perm b) :
    a ≠ [] ↔ b ≠ [] := by
  have hl := h.length_eq
  constructor
  · intro ha hb
    rw [hb] at hl
    exact ha (List.length_eq_zero.mp (by simpa using hl))
  · intro hb ha
    rw [ha] at hl
    exact hb (List.length_eq_zero.mp (by simpa using hl.symm))

/-- C2: for every input file list, `buildGroups` emits exactly one group
per known type in the fixed canonical order (each present even when
empty), each group's files a `fileLe`-sorted permutation of that type's
bucket, `isExpanded` true iff the group has at least one file, and an
`unknown` group appended last iff some input file has type `unknown` —
for every input, hence regardless of input ordering. -/
theorem claimC2_buildGroups (lec : String → String → Prop) [DecidableRel lec]
    [IsTotal String lec] [IsTrans String lec] (files : List ClaudeFileInfo) :
    ((buildGroups lec files).map (fun g => g.type) =
      [ClaudeFileType.userMemory, .userSettings, .personalCommand, .userSubagent,
        .projectMemory, .projectMemoryLocal, .projectSettings, .projectSettingsLocal,
        .projectCommand, .projectSubagent] ++
        (if bucket .unknown files ≠ [] then [ClaudeFileType.unknown] else [])) ∧
    (bucket .unknown files ≠ [] ↔ ∃ f ∈ files, f.type = .unknown) ∧
    (∀ g ∈ buildGroups lec files,
      List.Sorted (fileLe lec) g.files ∧
      g.files.Perm (bucket g.type files) ∧
      (g.isExpanded = true ↔ g.files ≠ [])) := by
  refine ⟨?_, ?_, ?_⟩
  · rw [buildGroups, List.map_append, List.map_map]
    congr 1
    by_cases h : bucket .unknown files ≠ []
    · rw [if_pos h, if_pos h]
      rfl
    · rw [if_neg h, if_neg h]
      rfl
  · rw [Ne, bucket, List.filter_eq_nil_iff]
    push_neg
    simp
  · intro g hg
    rw [buildGroups] at hg
    rcases List.mem_append.mp hg with hmem | hmem
    · obtain ⟨t, _, rfl⟩ := List.mem_map.mp hmem
      refine ⟨List.sorted_insertionSort _ _, List.perm_insertionSort _ _, ?_⟩
      have hperm : (sortFiles lec (bucket t files)).Perm (bucket t files) :=
        List.perm_insertionSort _ _
      simp only [decide_eq_true_iff]
      exact (perm_ne_nil_iff hperm).symm
    · by_cases h : bucket .unknown files ≠ []
      · rw [if_pos h] at hmem
        obtain rfl : _ = g := (List.mem_singleton.mp hmem).symm
        refine ⟨List.sorted_insertionSort _ _, List.perm_insertionSort _ _, ?_⟩
        have hperm : (sortFiles lec (bucket .unknown files)).Perm (bucket .unknown files) :=
          List.perm_insertionSort _ _
        simpa using (perm_ne_nil_iff hperm).mpr h
      · rw [if_neg h] at hmem
        exact absurd hmem (List.not_mem_nil _)

/-- Witness groups: the spec's scenario with one `project-memory` and
one `project-command` file. -/
def wFilePM : ClaudeFileInfo :=
  ⟨"/proj/CLAUDE.md", .projectMemory, 1, 0, [], []⟩

/-- Witness file of type `project-command`. -/
def wFilePC : ClaudeFileInfo :=
  ⟨"/proj/.claude/commands/deploy.md", .projectCommand, 1, 0, [], []⟩

/-- Witness for C2 at the scenario input (with the trivial comparison
standing in for the locale order). -/
theorem claimC2_witness :
    ((buildGroups trivLe [wFilePM, wFilePC]).map (fun g => g.type) =
      [ClaudeFileType.userMemory, .userSettings, .personalCommand, .userSubagent,
        .projectMemory, .projectMemoryLocal, .projectSettings, .projectSettingsLocal,
        .projectCommand, .projectSubagent] ++
        (if bucket .unknown [wFilePM, wFilePC] ≠ [] then [ClaudeFileType.unknown] else [])) ∧
    (bucket .unknown [wFilePM, wFilePC] ≠ [] ↔
      ∃ f ∈ [wFilePM, wFilePC], f.type = .unknown) ∧
    (∀ g ∈ buildGroups trivLe [wFilePM, wFilePC],
      List.Sorted (fileLe trivLe) g.files ∧
      g.files.Perm (bucket g.type [wFilePM, wFilePC]) ∧
      (g.isExpanded = true ↔ g.files ≠ [])) :=
  claimC2_buildGroups trivLe [wFilePM, wFilePC]

/-! ### Viewport containment and clamping: C5 -/

theorem linePosAux_bound {c : Cursor} :
    ∀ {items : List FlatItem} (p : Nat),
      linePosAux c items p = 0 ∨
        ∃ k, k < items.length ∧ linePosAux c items p = p + k := by
  intro items
  induction items with
  | nil => intro p; exact Or.inl rfl
  | cons it rest ih =>
    intro p
    by_cases hm : matchesCursor c it = true
    · right
      refine ⟨0, by simp, ?_⟩
      rw [linePosAux, if_pos hm]
      omega
    · rw [linePosAux, if_neg hm]
      rcases ih (p + 1) with h0 | ⟨k, hk, heq⟩
      · exact Or.inl h0
      · right
        exact ⟨k + 1, by simpa using Nat.succ_lt_succ hk, by omega⟩

theorem linePos_zero_or_lt (items : List FlatItem) (c : Cursor) :
    getCurrentLinePosition items c = 0 ∨ getCurrentLinePosition items c < items.length := by
  rcases @linePosAux_bound c items 0 with h | ⟨k, hk, heq⟩
  · exact Or.inl h
  · right
    rw [getCurrentLinePosition, heq]
    omega

/-- C5 amended: after a scroll adjustment the cursor's line always lies
inside `[offset', offset' + viewportHeight)`, and the clamp interval
`[0, totalLines - viewportHeight]` is preserved — an offset already in
the interval stays in it, and the derived `viewStart` is always clamped
— but the stored offset is not re-clamped when the list shrinks under
it (see the counterexample). -/
theorem claimC5_viewport_adjust (items : List FlatItem) (c : Cursor) (vh off : Nat)
    (hvh : 1 ≤ vh) :
    (getAdjustedScrollOffset items c vh off ≤ getCurrentLinePosition items c ∧
      getCurrentLinePosition items c < getAdjustedScrollOffset items c vh off + vh) ∧
    (off ≤ items.length - vh →
      getAdjustedScrollOffset items c vh off ≤ items.length - vh) ∧
    viewStart (getAdjustedScrollOffset items c vh off) vh items.length ≤
      items.length - vh := by
  have hpos := linePos_zero_or_lt items c
  rw [getAdjustedScrollOffset, adjustCalc, viewStart]
  rcases hpos with h0 | hlt
  · rw [h0]
    split_ifs with h1 h2 <;>
      simp only [Nat.max_def, Nat.min_def] at * <;>
      split_ifs <;> omega
  · split_ifs with h1 h2 <;>
      simp only [Nat.max_def, Nat.min_def] at * <;>
      split_ifs <;> omega

/-- Witness for the amended C5 theorem on a two-item list. -/
theorem claimC5_viewport_adjust_witness :
    1 ≤ 5 ∧
    ((getAdjustedScrollOffset [FlatItem.group 0, FlatItem.file 0 0] ⟨0, 0, false⟩ 5 0 ≤
        getCurrentLinePosition [FlatItem.group 0, FlatItem.file 0 0] ⟨0, 0, false⟩ ∧
      getCurrentLinePosition [FlatItem.group 0, FlatItem.file 0 0] ⟨0, 0, false⟩ <
        getAdjustedScrollOffset [FlatItem.group 0, FlatItem.file 0 0] ⟨0, 0, false⟩ 5 0 + 5) ∧
    (0 ≤ ([FlatItem.group 0, FlatItem.file 0 0] : List FlatItem).length - 5 →
      getAdjustedScrollOffset [FlatItem.group 0, FlatItem.file 0 0] ⟨0, 0, false⟩ 5 0 ≤
        ([FlatItem.group 0, FlatItem.file 0 0] : List FlatItem).length - 5) ∧
    viewStart (getAdjustedScrollOffset [FlatItem.group 0, FlatItem.file 0 0] ⟨0, 0, false⟩ 5 0)
        5 ([FlatItem.group 0, FlatItem.file 0 0] : List FlatItem).length ≤
      ([FlatItem.group 0, FlatItem.file 0 0] : List FlatItem).length - 5) :=
  ⟨by decide,
    claimC5_viewport_adjust [FlatItem.group 0, FlatItem.file 0 0] ⟨0, 0, false⟩ 5 0 (by decide)⟩

theorem reach_applyList (vh : Nat) :
    ∀ (es : List Event) (s : ListState),
      Relation.ReflTransGen (MachineStep vh) s (applyList vh es s) := by
  intro es
  induction es with
  | nil => intro s; exact Relation.ReflTransGen.refl
  | cons e rest ih =>
    intro s
    exact Relation.ReflTransGen.head ⟨e, rfl⟩ (ih (step vh e s))

set_option maxRecDepth 10000 in
/-- C5 counterexample: with viewport height 5, after walking to the
bottom of a 22-line list, back up to the last group's header (line 11,
scroll offset 11) and collapsing that group (12 lines remain), the
stored `scrollOffset` stays 11, outside `[0, max(0, 12 - 5)] = [0, 7]`
— the state machine reaches a state violating the claimed clamp
invariant. -/
theorem claimC5_counterexample :
    Reachable 5 cexGroupsVp cexStateVp ∧
    cexStateVp.scrollOffset = 11 ∧
    (flattenFileGroups cexStateVp.filtered).length = 12 ∧
    ¬(cexStateVp.scrollOffset ≤ (flattenFileGroups cexStateVp.filtered).length - 5) := by
  refine ⟨reach_applyList 5 cexEventsVp (initState 5 cexGroupsVp), ?_, ?_, ?_⟩ <;> decide

/-! ### Cursor repair: C1 -/

set_option maxRecDepth 4000 in
/-- C1 counterexample: the mount state over groups built from a single
`project-memory` file is reachable (it is the initial state), has
`isGroupSelected = false`, and its cursor `(0, 0)` addresses the empty,
collapsed first canonical group (`user-memory`) — not an existing,
expanded group's existing file.  The repair effects leave it that way,
refuting the claimed invariant. -/
theorem claimC1_counterexample :
    Reachable 5 cexGroupsC1 cexStateC1 ∧
    cexStateC1.isGroupSelected = false ∧
    ¬ validFileCursor cexStateC1.filtered cexStateC1.cursor := by
  refine ⟨Relation.ReflTransGen.refl, by decide, by decide⟩

theorem repairIndices_spec (fgs : List FileGroup) (gi fi : Nat) (hne : fgs ≠ []) :
    (repairIndices fgs (repairIndices fgs gi fi).1 (repairIndices fgs gi fi).2).1 <
      fgs.length ∧
    ∀ g,
      fgs.get?
          (repairIndices fgs (repairIndices fgs gi fi).1 (repairIndices fgs gi fi).2).1 =
        some g →
      g.isExpanded = true → g.files ≠ [] →
      (repairIndices fgs (repairIndices fgs gi fi).1 (repairIndices fgs gi fi).2).2 <
        g.files.length := by
  have hlen : 0 < fgs.length := List.length_pos.mpr hne
  have h1 : (repairIndices fgs gi fi).1 < fgs.length := by
    rw [repairIndices, if_pos hlen]
    by_cases h : gi ≥ fgs.length
    · rw [if_pos h]
      exact hlen
    · rw [if_neg h]
      omega
  set gi1 := (repairIndices fgs gi fi).1 with hgi1
  set fi1 := (repairIndices fgs gi fi).2 with hfi1
  have hgi2 : (repairIndices fgs gi1 fi1).1 = gi1 := by
    rw [repairIndices, if_pos hlen, if_neg (by omega)]
  cases hg : fgs.get? gi1 with
  | none =>
    exact absurd (List.get?_eq_none.mp hg) (by omega)
  | some g1 =>
    have hfi2 :
        (repairIndices fgs gi1 fi1).2 =
          if g1.isExpanded = true ∧ fi1 ≥ g1.files.length then 0 else fi1 := by
      rw [repairIndices, if_pos hlen, hg]
    refine ⟨by rw [hgi2]; exact h1, ?_⟩
    intro g hgg hexp hfne
    rw [hgi2] at hgg
    rw [hg] at hgg
    obtain rfl : g1 = g := by injection hgg
    rw [hfi2]
    by_cases hcond : g1.isExpanded = true ∧ fi1 ≥ g1.files.length
    · rw [if_pos hcond]
      exact List.length_pos.mpr hfne
    · rw [if_neg hcond]
      push_neg at hcond
      exact hcond hexp

theorem repairIndices_zero (fgs : List FileGroup) : repairIndices fgs 0 0 = (0, 0) := by
  rw [repairIndices]
  by_cases h : fgs.length > 0
  · rw [if_pos h]
    cases hg : fgs.get? 0 with
    | none => simp [h]
    | some g =>
      refine Prod.ext ?_ ?_ <;> simp only []
      · rw [if_neg (by omega)]
      · split_ifs <;> rfl
  · rw [if_neg h]

/-- C1 amended: the repair that actually holds.  With a non-empty
filtered list, after the repair effect settles, `groupIndex` is in
range, and whenever the current group is expanded and non-empty,
`fileIndex` is in range; and a query change always resets the cursor to
`(0, 0, isGroupSelected = false)`.  The flag itself is never repaired,
so the cursor may still sit on an empty or collapsed group with
`isGroupSelected = false` (see the counterexample). -/
theorem claimC1_cursor_repair (s : ListState) (hne : s.filtered ≠ []) :
    ((repair s).groupIndex < s.filtered.length ∧
      (∀ g, s.filtered.get? (repair s).groupIndex = some g → g.isExpanded = true →
        g.files ≠ [] → (repair s).fileIndex < g.files.length)) ∧
    (∀ (vh : Nat) (q : String),
      (step vh (Event.setQuery q) s).groupIndex = 0 ∧
      (step vh (Event.setQuery q) s).fileIndex = 0 ∧
      (step vh (Event.setQuery q) s).isGroupSelected = false) := by
  constructor
  · have hspec := repairIndices_spec s.filtered s.groupIndex s.fileIndex hne
    exact hspec
  · intro vh q
    simp only [step, applyEffects, handleEvent, repair, repairPass, ListState.filtered,
      repairIndices_zero]
    exact ⟨trivial, trivial, trivial⟩

set_option maxRecDepth 4000 in
/-- Witness for the amended C1 theorem at the mount state over the
single-file groups. -/
theorem claimC1_cursor_repair_witness :
    cexStateC1.filtered ≠ [] ∧
    (((repair cexStateC1).groupIndex < cexStateC1.filtered.length ∧
      (∀ g, cexStateC1.filtered.get? (repair cexStateC1).groupIndex = some g →
        g.isExpanded = true → g.files ≠ [] →
        (repair cexStateC1).fileIndex < g.files.length)) ∧
    (∀ (vh : Nat) (q : String),
      (step vh (Event.setQuery q) cexStateC1).groupIndex = 0 ∧
      (step vh (Event.setQuery q) cexStateC1).fileIndex = 0 ∧
      (step vh (Event.setQuery q) cexStateC1).isGroupSelected = false)) :=
  ⟨by decide, claimC1_cursor_repair cexStateC1 (by decide)⟩

/-! ### Move down from the last file of a group: C8 -/

/-- C8: `handleDownArrow` from the last file of a group lands on the
next group's header (group-selected, never its first file) when a next
group exists in the filtered view, and leaves the cursor unchanged
otherwise. -/
theorem claimC8_down_from_last_file (gs : List FileGroup) (gi fi : Nat) (g : FileGroup)
    (hg : gs.get? gi = some g) (_hne : g.files ≠ []) (hfi : fi = g.files.length - 1) :
    handleDownArrow gs ⟨gi, fi, false⟩ =
      if gi + 1 < gs.length then ⟨gi + 1, 0, true⟩ else ⟨gi, fi, false⟩ := by
  have hlen : gi < gs.length := List.get?_eq_some.mp hg |>.1
  rw [handleDownArrow]
  simp only [Bool.false_eq_true, if_false, hg]
  rw [if_neg (by omega)]
  by_cases hnext : gi + 1 < gs.length
  · rw [if_pos (by omega : gi < gs.length - 1), if_pos hnext]
  · rw [if_neg (by omega : ¬ gi < gs.length - 1), if_neg hnext]

/-- Witness for C8: two single-file groups, cursor on the last (only)
file of the first; moving down lands on the second group's header. -/
theorem claimC8_witness :
    handleDownArrow
        [⟨.userMemory, [wFilePM], true⟩, ⟨.projectMemory, [wFilePC], true⟩]
        ⟨0, 0, false⟩ =
      ⟨1, 0, true⟩ :=
  (claimC8_down_from_last_file
      [⟨.userMemory, [wFilePM], true⟩, ⟨.projectMemory, [wFilePC], true⟩]
      0 0 ⟨.userMemory, [wFilePM], true⟩ (by decide) (by decide) (by decide)).trans
    (by decide)

/-! ### Full downward traversal: C6 -/

theorem sizeG_pos (g : FileGroup) : 1 ≤ sizeG g := by
  rw [sizeG]
  omega

theorem sumSizes_pos {gs : List FileGroup} (h : gs ≠ []) : 1 ≤ sumSizes gs := by
  cases gs with
  | nil => exact absurd rfl h
  | cons g rest =>
    rw [sumSizes, List.map_cons, List.sum_cons]
    have := sizeG_pos g
    omega

theorem flattenFrom_length : ∀ (gs : List FileGroup) (i : Nat),
    (flattenFrom i gs).length = sumSizes gs := by
  intro gs
  induction gs with
  | nil => intro i; rfl
  | cons g rest ih =>
    intro i
    rw [flattenFrom, sumSizes, List.map_cons, List.sum_cons, List.length_append,
      List.length_cons, ih, sizeG, ← sumSizes]
    by_cases he : g.isExpanded = true
    · rw [if_pos he, if_pos he]
      simp
      omega
    · rw [if_neg he, if_neg he]
      simp

theorem down_header_enter {gs : List FileGroup} {i : Nat} {g : FileGroup} (fi : Nat)
    (hg : gs.get? i = some g) (hexp : g.isExpanded = true) (hlen : 0 < g.files.length) :
    handleDownArrow gs ⟨i, fi, true⟩ = ⟨i, 0, false⟩ := by
  have hg2 : gs[i]? = some g := by rwa [List.get?_eq_getElem?] at hg
  simp [handleDownArrow, hg2, hexp, hlen]

theorem down_header_skip {gs : List FileGroup} {i : Nat} {g : FileGroup} (fi : Nat)
    (hg : gs.get? i = some g) (hcond : ¬(g.isExpanded = true ∧ g.files.length > 0))
    (hnext : i < gs.length - 1) :
    handleDownArrow gs ⟨i, fi, true⟩ = ⟨i + 1, fi, true⟩ := by
  have hg2 : gs[i]? = some g := by rwa [List.get?_eq_getElem?] at hg
  simp [handleDownArrow, hg2, hcond, hnext]

theorem down_header_stay {gs : List FileGroup} {i : Nat} {g : FileGroup} (fi : Nat)
    (hg : gs.get? i = some g) (hcond : ¬(g.isExpanded = true ∧ g.files.length > 0))
    (hlast : ¬ i < gs.length - 1) :
    handleDownArrow gs ⟨i, fi, true⟩ = ⟨i, fi, true⟩ := by
  have hg2 : gs[i]? = some g := by rwa [List.get?_eq_getElem?] at hg
  simp [handleDownArrow, hg2, hcond, hlast]

theorem down_file_next {gs : List FileGroup} {i : Nat} {g : FileGroup} {fi : Nat}
    (hg : gs.get? i = some g) (hfi : fi < g.files.length - 1) :
    handleDownArrow gs ⟨i, fi, false⟩ = ⟨i, fi + 1, false⟩ := by
  have hg2 : gs[i]? = some g := by rwa [List.get?_eq_getElem?] at hg
  simp [handleDownArrow, hg2, hfi]

theorem down_file_exit {gs : List FileGroup} {i : Nat} {g : FileGroup} {fi : Nat}
    (hg : gs.get? i = some g) (hfi : ¬ fi < g.files.length - 1)
    (hnext : i < gs.length - 1) :
    handleDownArrow gs ⟨i, fi, false⟩ = ⟨i + 1, 0, true⟩ := by
  have hg2 : gs[i]? = some g := by rwa [List.get?_eq_getElem?] at hg
  simp [handleDownArrow, hg2, hfi, hnext]

theorem down_file_stay {gs : List FileGroup} {i : Nat} {g : FileGroup} {fi : Nat}
    (hg : gs.get? i = some g) (hfi : ¬ fi < g.files.length - 1)
    (hlast : ¬ i < gs.length - 1) :
    handleDownArrow gs ⟨i, fi, false⟩ = ⟨i, fi, false⟩ := by
  have hg2 : gs[i]? = some g := by rwa [List.get?_eq_getElem?] at hg
  simp [handleDownArrow, hg2, hfi, hlast]

theorem downRun_files (gs : List FileGroup) (i : Nat) (g : FileGroup)
    (hg : gs.get? i = some g) :
    ∀ (k fi : Nat), fi + k + 1 ≤ g.files.length →
      (handleDownArrow gs)^[k] ⟨i, fi, false⟩ = ⟨i, fi + k, false⟩ := by
  intro k
  induction k with
  | zero => intro fi _; rfl
  | succ k ih =>
    intro fi h
    rw [Function.iterate_succ_apply, down_file_next hg (by omega), ih (fi + 1) (by omega)]
    have : fi + 1 + k = fi + (k + 1) := by omega
    rw [this]

theorem downRun_group (gs : List FileGroup) (i : Nat) (g : FileGroup)
    (hg : gs.get? i = some g) (hnext : i < gs.length - 1) (fi : Nat) :
    (handleDownArrow gs)^[sizeG g] ⟨i, fi, true⟩ =
      ⟨i + 1, if g.isExpanded = true ∧ g.files.length > 0 then 0 else fi, true⟩ := by
  by_cases hcond : g.isExpanded = true ∧ g.files.length > 0
  · rw [if_pos hcond]
    have hsz : sizeG g = (1 + (g.files.length - 1)) + 1 := by
      rw [sizeG, if_pos hcond.1]
      omega
    rw [hsz, Function.iterate_succ_apply, down_header_enter fi hg hcond.1 hcond.2,
      Function.iterate_add_apply,
      downRun_files gs i g hg (g.files.length - 1) 0 (by omega),
      Function.iterate_one, down_file_exit hg (by omega) hnext]
  · rw [if_neg hcond]
    have hsz : sizeG g = 1 := by
      rw [sizeG]
      by_cases he : g.isExpanded = true
      · rw [if_pos he]
        push_neg at hcond
        have := hcond he
        omega
      · rw [if_neg he]
    rw [hsz, Function.iterate_one, down_header_skip fi hg hcond hnext]

theorem downRun_last (gs : List FileGroup) (i : Nat) (g : FileGroup)
    (hg : gs.get? i = some g) (hlast : ¬ i < gs.length - 1) (fi : Nat) :
    (handleDownArrow gs)^[sizeG g - 1] ⟨i, fi, true⟩ =
      (if g.isExpanded = true ∧ g.files.length > 0
        then (⟨i, g.files.length - 1, false⟩ : Cursor) else ⟨i, fi, true⟩) ∧
    handleDownArrow gs
        ((handleDownArrow gs)^[sizeG g - 1] ⟨i, fi, true⟩) =
      (handleDownArrow gs)^[sizeG g - 1] ⟨i, fi, true⟩ := by
  by_cases hcond : g.isExpanded = true ∧ g.files.length > 0
  · have hsz : sizeG g - 1 = (g.files.length - 1) + 1 := by
      rw [sizeG, if_pos hcond.1]
      omega
    have hrun : (handleDownArrow gs)^[sizeG g - 1] ⟨i, fi, true⟩ =
        ⟨i, g.files.length - 1, false⟩ := by
      rw [hsz, Function.iterate_add_apply, Function.iterate_one,
        down_header_enter fi hg hcond.1 hcond.2,
        downRun_files gs i g hg (g.files.length - 1) 0 (by omega)]
      have : 0 + (g.files.length - 1) = g.files.length - 1 := by omega
      rw [this]
    rw [hrun, if_pos hcond]
    exact ⟨rfl, down_file_stay hg (by omega) hlast⟩
  · have hsz : sizeG g - 1 = 0 := by
      rw [sizeG]
      by_cases he : g.isExpanded = true
      · rw [if_pos he]
        push_neg at hcond
        have := hcond he
        omega
      · rw [if_neg he]
    rw [hsz, if_neg hcond]
    exact ⟨rfl, down_header_stay fi hg hcond hlast⟩

theorem flattenFrom_ne_nil {gs : List FileGroup} (h : gs ≠ []) (i : Nat) :
    flattenFrom i gs ≠ [] := by
  cases gs with
  | nil => exact absurd rfl h
  | cons g rest =>
    rw [flattenFrom]
    simp

theorem getLast?_range {n : Nat} (h : 0 < n) :
    (List.range n).getLast? = some (n - 1) := by
  cases n with
  | zero => omega
  | succ m =>
    rw [List.range_succ, List.getLast?_concat]
    simp

theorem flattenFrom_getLast? :
    ∀ (gs : List FileGroup) (i : Nat) (glast : FileGroup),
      gs.get? (gs.length - 1) = some glast → gs ≠ [] →
      (flattenFrom i gs).getLast? =
        some (if glast.isExpanded = true ∧ glast.files.length > 0
              then FlatItem.file (i + (gs.length - 1)) (glast.files.length - 1)
              else FlatItem.group (i + (gs.length - 1))) := by
  intro gs
  induction gs with
  | nil => intro i glast h _; exact absurd h (by simp)
  | cons g rest ih =>
    intro i glast h _
    by_cases hne2 : rest = []
    · subst hne2
      obtain rfl : glast = g := by
        have h2 := h
        simp at h2
        exact h2.symm
      rw [flattenFrom, flattenFrom, List.append_nil]
      by_cases hcond : glast.isExpanded = true ∧ glast.files.length > 0
      · rw [if_pos hcond, if_pos hcond.1]
        have hmap : ((List.range glast.files.length).map (FlatItem.file i)).getLast? =
            some (FlatItem.file i (glast.files.length - 1)) := by
          rw [List.getLast?_map, getLast?_range hcond.2]
          rfl
        have hsplit :
            (FlatItem.group i :: (List.range glast.files.length).map (FlatItem.file i)) =
              [FlatItem.group i] ++ (List.range glast.files.length).map (FlatItem.file i) :=
          rfl
        rw [hsplit, List.getLast?_append, hmap]
        simp
      · rw [if_neg hcond]
        by_cases he : glast.isExpanded = true
        · have hlen : glast.files.length = 0 := by
            push_neg at hcond
            have := hcond he
            omega
          rw [if_pos he, hlen]
          simp
        · rw [if_neg he]
          simp
    · rw [flattenFrom, List.getLast?_append]
      have hlz : rest.length ≠ 0 := fun hz => hne2 (List.length_eq_zero.mp hz)
      have h2 : rest.get? (rest.length - 1) = some glast := by
        have hlen1 : (g :: rest).length - 1 = rest.length := by simp
        rw [hlen1] at h
        cases hrl : rest.length with
        | zero => exact absurd hrl hlz
        | succ m =>
          rw [hrl] at h
          rw [List.get?_cons_succ] at h
          simpa using h
      have hth := ih (i + 1) glast h2 hne2
      rw [hth]
      have hidx : (i + 1) + (rest.length - 1) = i + ((g :: rest).length - 1) := by
        simp
        omega
      rw [hidx]
      rfl

theorem sumSizes_drop {gs : List FileGroup} {i : Nat} {g : FileGroup}
    (hg : gs.get? i = some g) :
    sumSizes (gs.drop i) = sizeG g + sumSizes (gs.drop (i + 1)) := by
  have hlt : i < gs.length := (List.get?_eq_some.mp hg).1
  have hdrop := List.drop_eq_getElem_cons hlt
  have hgg : gs[i] = g := by
    have := List.get?_eq_some.mp hg
    obtain ⟨hh, hv⟩ := this
    simpa using hv
  rw [hdrop, hgg, sumSizes, List.map_cons, List.sum_cons, ← sumSizes]

theorem downRun_all :
    ∀ (n : Nat) (gs : List FileGroup) (i fi : Nat) (g : FileGroup),
      gs.get? i = some g → gs.length = i + n + 1 →
      ∃ c : Cursor,
        (handleDownArrow gs)^[sumSizes (gs.drop i) - 1] ⟨i, fi, true⟩ = c ∧
        handleDownArrow gs c = c ∧
        ∀ glast, gs.get? (gs.length - 1) = some glast →
          cursorItem c =
            (if glast.isExpanded = true ∧ glast.files.length > 0
              then FlatItem.file (gs.length - 1) (glast.files.length - 1)
              else FlatItem.group (gs.length - 1)) := by
  intro n
  induction n with
  | zero =>
    intro gs i fi g hg hlen
    have hlast : ¬ i < gs.length - 1 := by omega
    have hdrop : sumSizes (gs.drop i) = sizeG g := by
      rw [sumSizes_drop hg]
      have : gs.drop (i + 1) = [] := List.drop_eq_nil_iff.mpr (by omega)
      rw [this]
      simp [sumSizes]
    obtain ⟨hrun, hfix⟩ := downRun_last gs i g hg hlast fi
    refine ⟨(handleDownArrow gs)^[sizeG g - 1] ⟨i, fi, true⟩, by rw [hdrop], hfix, ?_⟩
    intro glast hgl
    have hig : gs.length - 1 = i := by omega
    rw [hig] at hgl
    obtain rfl : glast = g := by
      rw [hg] at hgl
      injection hgl.symm
    rw [hrun, hig]
    by_cases hcond : glast.isExpanded = true ∧ glast.files.length > 0
    · rw [if_pos hcond, if_pos hcond]
      rfl
    · rw [if_neg hcond, if_neg hcond]
      rfl
  | succ n ih =>
    intro gs i fi g hg hlen
    have hnext : i < gs.length - 1 := by omega
    have hlt1 : i + 1 < gs.length := by omega
    cases hg2 : gs.get? (i + 1) with
    | none => exact absurd (List.get?_eq_none.mp hg2) (by omega)
    | some g2 =>
      set fi2 := if g.isExpanded = true ∧ g.files.length > 0 then 0 else fi with hfi2
      obtain ⟨c, hiter, hfix, hitem⟩ := ih gs (i + 1) fi2 g2 hg2 (by omega)
      have hrest : 1 ≤ sumSizes (gs.drop (i + 1)) :=
        sumSizes_pos (by rw [Ne, List.drop_eq_nil_iff]; omega)
      have htot : sumSizes (gs.drop i) - 1 =
          (sumSizes (gs.drop (i + 1)) - 1) + sizeG g := by
        rw [sumSizes_drop hg]
        have := sizeG_pos g
        omega
      refine ⟨c, ?_, hfix, hitem⟩
      rw [htot, Function.iterate_add_apply, downRun_group gs i g hg hnext fi, ← hfi2]
      exact hiter

/-- C6: in any non-empty filtered group list, starting at the first flat
item (the first group's header) and pressing move-down `N` times, where
`N` is the flattened sequence length, the cursor ends on the flattened
sequence's last item, and every further move-down — any number of them —
is a no-op.  The handler is a total function, so no step can throw. -/
theorem claimC6_moveDown_total (gs : List FileGroup) (hne : gs ≠ []) :
    (flattenFileGroups gs).head? = some (cursorItem ⟨0, 0, true⟩) ∧
    some (cursorItem ((handleDownArrow gs)^[(flattenFileGroups gs).length] ⟨0, 0, true⟩)) =
      (flattenFileGroups gs).getLast? ∧
    ∀ k, (handleDownArrow gs)^[k]
        ((handleDownArrow gs)^[(flattenFileGroups gs).length] ⟨0, 0, true⟩) =
      (handleDownArrow gs)^[(flattenFileGroups gs).length] ⟨0, 0, true⟩ := by
  obtain ⟨g0, hg0⟩ : ∃ g0, gs.get? 0 = some g0 := by
    cases gs with
    | nil => exact absurd rfl hne
    | cons g rest => exact ⟨g, rfl⟩
  have hN : (flattenFileGroups gs).length = sumSizes gs := by
    rw [flattenFileGroups, flattenFrom_length]
  have hpos : 1 ≤ sumSizes gs := sumSizes_pos hne
  obtain ⟨glast, hglast⟩ : ∃ glast, gs.get? (gs.length - 1) = some glast := by
    cases hgl : gs.get? (gs.length - 1) with
    | none =>
      have hlen : 0 < gs.length := List.length_pos.mpr hne
      exact absurd (List.get?_eq_none.mp hgl) (by omega)
    | some glast => exact ⟨glast, rfl⟩
  obtain ⟨c, hiter, hfix, hitem⟩ :=
    downRun_all (gs.length - 1) gs 0 0 g0 hg0
      (by have := List.length_pos.mpr hne; omega)
  have hdrop0 : gs.drop 0 = gs := List.drop_zero gs
  rw [hdrop0] at hiter
  have hfull : (handleDownArrow gs)^[(flattenFileGroups gs).length] ⟨0, 0, true⟩ = c := by
    rw [hN, show sumSizes gs = (sumSizes gs - 1) + 1 from by omega,
      Function.iterate_succ_apply']
    rw [hiter, hfix]
  refine ⟨?_, ?_, ?_⟩
  · cases gs with
    | nil => exact absurd rfl hne
    | cons g rest =>
      rw [flattenFileGroups, flattenFrom]
      rfl
  · rw [hfull, hitem glast hglast, flattenFileGroups, flattenFrom_getLast? gs 0 glast hglast hne]
    simp
  · intro k
    rw [hfull]
    exact Function.iterate_fixed hfix k

/-- Witness for C6 on the ten empty canonical groups built from no
files: ten flat headers, ten move-downs, stable at the last header. -/
theorem claimC6_witness :
    buildGroups trivLe [] ≠ [] ∧
    ((flattenFileGroups (buildGroups trivLe [])).head? =
        some (cursorItem ⟨0, 0, true⟩) ∧
      some (cursorItem
          ((handleDownArrow (buildGroups trivLe []))^[
              (flattenFileGroups (buildGroups trivLe [])).length] ⟨0, 0, true⟩)) =
        (flattenFileGroups (buildGroups trivLe [])).getLast? ∧
      ∀ k, (handleDownArrow (buildGroups trivLe []))^[k]
          ((handleDownArrow (buildGroups trivLe []))^[
              (flattenFileGroups (buildGroups trivLe [])).length] ⟨0, 0, true⟩) =
        (handleDownArrow (buildGroups trivLe []))^[
            (flattenFileGroups (buildGroups trivLe [])).length] ⟨0, 0, true⟩) :=
  ⟨by decide, claimC6_moveDown_total (buildGroups trivLe []) (by decide)⟩
